import Mathlib

/-!
Verification of the `ska_ser_devices.client_server` package.

This file gives a shallow embedding of the marshalling strategies
(`marshaller.py`), the application-layer server and client
(`application.py`) and the TCP server request handler and client session
(`tcp.py`), and proves properties of them.

Modelling conventions:
* a byte is a `Nat`; a bytestring (Python `bytes`) is `Bytes := List Nat`;
* a bytes iterator (one ChunkSource) is the finite list of the chunks it
  yields before the underlying read returns empty; `StopIteration` raised
  by `next` on an exhausted iterator surfaces as the `endOfStream` error;
* Python exceptions become `Except` results: `ValueError` raised by the
  marshallers is `lengthMismatch`, `StopIteration` is `endOfStream`,
  `ConnectionError` raised by the TCP session is `connectionError`;
* stateful objects (`TcpClientSession`, the clients holding a current
  session) become immutable state records with explicit state passing;
* the unbounded `while True` loop of the TCP request handler is embedded
  with explicit fuel.
-/

/-- A Python bytestring: a list of byte values. -/
abbrev Bytes : Type := List Nat

/-- Errors raised by the marshallers: `endOfStream` models `StopIteration`
propagating out of `next(bytes_iterator)`, `lengthMismatch` models the
`ValueError` raised by the fixed-length marshaller. -/
inductive MarshallError where
  | endOfStream
  | lengthMismatch
  deriving DecidableEq, Repr

/-- Python `bytes.removesuffix`: drops the given suffix when present,
returns the bytestring unchanged otherwise. -/
def removeSuffix (b suffix : Bytes) : Bytes :=
  if suffix <:+ b then b.take (b.length - suffix.length) else b

namespace SentinelBytesMarshaller

/-- Embedding of `SentinelBytesMarshaller.marshall`: appends the sentinel
to the payload. -/
def marshall (sentinel payload : Bytes) : Bytes :=
  payload ++ sentinel

/-- The `while not more_bytes.endswith(self._sentinel)` loop of
`SentinelBytesMarshaller.unmarshall`: `payload` is the accumulator so
far, `more` is the bytestring received last, and `chunks` are the chunks
the iterator has yet to yield.  Python `endswith` is the suffix test. -/
def unmarshallLoop (sentinel payload more : Bytes) (chunks : List Bytes) :
    Except MarshallError Bytes :=
  if sentinel <:+ more then
    .ok (removeSuffix payload sentinel)
  else
    match chunks with
    | [] => .error .endOfStream
    | c :: rest => unmarshallLoop sentinel (payload ++ c) c rest

/-- Embedding of `SentinelBytesMarshaller.unmarshall`: reads a first
chunk (raising end-of-stream on an exhausted iterator), then loops until
the last received chunk ends with the sentinel, and returns the
accumulator with the sentinel suffix removed. -/
def unmarshall (sentinel : Bytes) (chunks : List Bytes) :
    Except MarshallError Bytes :=
  match chunks with
  | [] => .error .endOfStream
  | c :: rest => unmarshallLoop sentinel c c rest

end SentinelBytesMarshaller

namespace FixedLengthBytesMarshaller

/-- Embedding of `FixedLengthBytesMarshaller.marshall`: raises
`ValueError` (here `lengthMismatch`) unless the payload has exactly the
configured length, and otherwise returns the payload unchanged. -/
def marshall (length : Nat) (payload : Bytes) : Except MarshallError Bytes :=
  if payload.length ≠ length then .error .lengthMismatch else .ok payload

/-- The `while len(payload) < self._length` loop of
`FixedLengthBytesMarshaller.unmarshall`, followed by the final length
check: `payload` is the accumulator, `chunks` are the chunks the
iterator has yet to yield. -/
def unmarshallLoop (length : Nat) (payload : Bytes) (chunks : List Bytes) :
    Except MarshallError Bytes :=
  if payload.length < length then
    match chunks with
    | [] => .error .endOfStream
    | c :: rest => unmarshallLoop length (payload ++ c) rest
  else if payload.length ≠ length then .error .lengthMismatch
  else .ok payload

/-- Embedding of `FixedLengthBytesMarshaller.unmarshall`: reads a first
chunk unconditionally, accumulates chunks while the accumulator is
shorter than the configured length, then checks the length exactly. -/
def unmarshall (length : Nat) (chunks : List Bytes) :
    Except MarshallError Bytes :=
  match chunks with
  | [] => .error .endOfStream
  | c :: rest => unmarshallLoop length c rest

end FixedLengthBytesMarshaller

namespace ApplicationServer

/-- Embedding of `ApplicationServer.__call__`: unmarshalls one request
payload from the bytes iterator, hands it to the application callback,
and marshalls the response when the callback returns one; a `none` from
the callback yields `none` (no bytes to transmit).  Failures of the
unmarshaller propagate. -/
def call {ReqPayload RespPayload : Type}
    (requestUnmarshaller : List Bytes → Except MarshallError ReqPayload)
    (responseMarshaller : RespPayload → Bytes)
    (callback : ReqPayload → Option RespPayload)
    (bytesIterator : List Bytes) : Except MarshallError (Option Bytes) :=
  match requestUnmarshaller bytesIterator with
  | .error e => .error e
  | .ok requestPayload =>
    match callback requestPayload with
    | none => .ok none
    | some responsePayload => .ok (some (responseMarshaller responsePayload))

end ApplicationServer

namespace TcpServer

/-- Outcome of one `server.callback(bytes_iterator)` invocation inside
`_TcpServerRequestHandler.handle`: a returned value (with the chunks the
callback left unconsumed on the connection), a `StopIteration`, or any
other exception (identified by a code). -/
inductive CallbackResult where
  | ok (response : Option Bytes) (rest : List Bytes)
  | stopIteration
  | raised (e : Nat)
  deriving DecidableEq, Repr

/-- What one iteration of the `while True` loop in
`_TcpServerRequestHandler.handle` does with the callback outcome. -/
inductive StepAction where
  | send (response : Bytes) (rest : List Bytes)
  | proceed (rest : List Bytes)
  | breakLoop
  | raised (e : Nat)
  deriving DecidableEq, Repr

/-- One iteration of the handler loop: only `StopIteration` is caught
(breaking the loop); any other exception propagates; a truthy response
(`if response:`) is sent with `sendall`; a falsy response (`None` or an
empty bytestring) is not sent and the loop proceeds. -/
def handleStep : CallbackResult → StepAction
  | .stopIteration => .breakLoop
  | .raised e => .raised e
  | .ok none rest => .proceed rest
  | .ok (some response) rest =>
    if response = [] then .proceed rest else .send response rest

/-- How a run of `_TcpServerRequestHandler.handle` ends: the loop broke
on end of stream, an exception propagated out of `handle`, or the fuel
ran out. -/
inductive HandleEnd where
  | closed
  | errored (e : Nat)
  | outOfFuel
  deriving DecidableEq, Repr

/-- Fuelled embedding of the `while True` loop of
`_TcpServerRequestHandler.handle`: on each iteration the callback is run
on the remaining stream; the step action decides whether bytes are sent,
the loop proceeds, breaks, or the exception propagates.  Returns all
bytes sent on the connection together with how the loop ended. -/
def handle (callback : List Bytes → CallbackResult) :
    Nat → List Bytes → Bytes → Bytes × HandleEnd
  | 0, _, sent => (sent, .outOfFuel)
  | fuel + 1, stream, sent =>
    match handleStep (callback stream) with
    | .breakLoop => (sent, .closed)
    | .raised e => (sent, .errored e)
    | .proceed rest => handle callback fuel rest sent
    | .send response rest => handle callback fuel rest (sent ++ response)

end TcpServer

/-- State of a `_TcpBytestringIterator`: the socket it reads from and
its buffer size. -/
structure TcpBytestringIteratorState where
  socket : Nat
  bufferSize : Nat
  deriving DecidableEq, Repr

/-- The `ConnectionError` raised by `TcpClientSession.request` on a
closed session. -/
inductive TcpError where
  | connectionError
  deriving DecidableEq, Repr

/-- State of a `TcpClientSession`: `sessionSocket` is `None` once the
session has been closed. -/
structure TcpClientSessionState where
  sessionSocket : Option Nat
  bufferSize : Nat
  deriving DecidableEq, Repr

namespace TcpClientSessionState

/-- Embedding of `TcpClientSession.request`: raises `ConnectionError` if
the session socket is closed, otherwise sends the request and returns a
bytestring iterator bound to the same socket.  The session state is not
modified. -/
def request (s : TcpClientSessionState) (req : Bytes) :
    Except TcpError TcpBytestringIteratorState :=
  match s.sessionSocket with
  | none => .error .connectionError
  | some sock =>
    let _ := req
    .ok { socket := sock, bufferSize := s.bufferSize }

/-- Embedding of `TcpClientSession.close`: closes the socket and sets the
session socket to `None`. -/
def close (s : TcpClientSessionState) : TcpClientSessionState :=
  { s with sessionSocket := none }

end TcpClientSessionState

/-- State of a `TcpClient`: the session it holds, if any. -/
structure TcpClientState where
  session : Option TcpClientSessionState
  deriving DecidableEq, Repr

/-- Result of running an `__exit__` method: the object state afterwards,
the final state of the session object the client was holding (if it was
holding one), and the returned boolean that tells the `with` statement
whether to suppress the exception. -/
structure ExitResult (Client Session : Type) where
  client : Client
  sessionAfter : Option Session
  suppress : Bool

namespace TcpClientState

/-- Embedding of `TcpClient.__exit__`: when a session is held, it is
closed and the reference dropped; the method returns `exception is None`,
so the `with` statement re-raises any exception. -/
def exitCtx (c : TcpClientState) (exception : Option Nat) :
    ExitResult TcpClientState TcpClientSessionState :=
  match c.session with
  | some s =>
    { client := { session := none }
      sessionAfter := some s.close
      suppress := exception.isNone }
  | none =>
    { client := c
      sessionAfter := none
      suppress := exception.isNone }

end TcpClientState

/-- State of an `ApplicationClientSession`: the transport session it
wraps. -/
structure ApplicationClientSessionState where
  transportSession : TcpClientSessionState
  deriving DecidableEq, Repr

/-- Embedding of `ApplicationClientSession.close`: closes the underlying
transport session. -/
def ApplicationClientSessionState.close (s : ApplicationClientSessionState) :
    ApplicationClientSessionState :=
  { transportSession := s.transportSession.close }

/-- State of an `ApplicationClient`: the session it holds, if any. -/
structure ApplicationClientState where
  session : Option ApplicationClientSessionState
  deriving DecidableEq, Repr

namespace ApplicationClientState

/-- Embedding of `ApplicationClient.__exit__`: when a session is held, it
is closed and the reference dropped; the method returns
`exception is None`, so the `with` statement re-raises any exception. -/
def exitCtx (c : ApplicationClientState) (exception : Option Nat) :
    ExitResult ApplicationClientState ApplicationClientSessionState :=
  match c.session with
  | some s =>
    { client := { session := none }
      sessionAfter := some s.close
      suppress := exception.isNone }
  | none =>
    { client := c
      sessionAfter := none
      suppress := exception.isNone }

end ApplicationClientState

deriving instance DecidableEq for Except

section Lemmas

/-- Dropping the appended suffix recovers the original list. -/
theorem removeSuffix_append (p s : Bytes) : removeSuffix (p ++ s) s = p := by
  rw [removeSuffix, if_pos (List.suffix_append p s)]
  have hlen : (p ++ s).length - s.length = p.length := by
    simp
  rw [hlen]
  exact List.take_left p s

/-- If no pending chunk ends with the sentinel and the last received one
does not either, the sentinel unmarshalling loop exhausts the iterator
and fails with end of stream. -/
theorem sentinel_unmarshallLoop_eos (sentinel : Bytes) (chunks : List Bytes) :
    ∀ payload more : Bytes, ¬ sentinel <:+ more →
    (∀ c ∈ chunks, ¬ sentinel <:+ c) →
    SentinelBytesMarshaller.unmarshallLoop sentinel payload more chunks =
      Except.error MarshallError.endOfStream := by
  induction chunks with
  | nil =>
    intro payload more hm _
    rw [SentinelBytesMarshaller.unmarshallLoop, if_neg hm]
  | cons c rest ih =>
    intro payload more hm hc
    rw [SentinelBytesMarshaller.unmarshallLoop, if_neg hm]
    exact ih (payload ++ c) c (hc c (by simp)) fun d hd => hc d (by simp [hd])

/-- Unfolding: when the last received chunk does not end with the
sentinel, the loop pulls the next chunk. -/
theorem sentinel_unmarshallLoop_cons (sentinel payload more c : Bytes)
    (rest : List Bytes) (hm : ¬ sentinel <:+ more) :
    SentinelBytesMarshaller.unmarshallLoop sentinel payload more (c :: rest) =
      SentinelBytesMarshaller.unmarshallLoop sentinel (payload ++ c) c rest := by
  rw [SentinelBytesMarshaller.unmarshallLoop, if_neg hm]

/-- Unfolding: when the last received chunk ends with the sentinel, the
loop returns the accumulator with the sentinel suffix removed. -/
theorem sentinel_unmarshallLoop_found (sentinel payload more : Bytes)
    (chunks : List Bytes) (hm : sentinel <:+ more) :
    SentinelBytesMarshaller.unmarshallLoop sentinel payload more chunks =
      Except.ok (removeSuffix payload sentinel) := by
  rw [SentinelBytesMarshaller.unmarshallLoop.eq_def, if_pos hm]

/-- If no chunk before the last ends with the sentinel, and the last one
does, the sentinel unmarshalling loop consumes every chunk and returns
the full accumulation with the sentinel suffix removed. -/
theorem sentinel_unmarshallLoop_ok (sentinel : Bytes) (pre : List Bytes) :
    ∀ (payload more last : Bytes), ¬ sentinel <:+ more →
    (∀ d ∈ pre, ¬ sentinel <:+ d) → sentinel <:+ last →
    SentinelBytesMarshaller.unmarshallLoop sentinel payload more
        (pre ++ [last]) =
      Except.ok (removeSuffix (payload ++ (pre ++ [last]).flatten) sentinel) := by
  induction pre with
  | nil =>
    intro payload more last hm _ hl
    simp only [List.nil_append]
    rw [sentinel_unmarshallLoop_cons sentinel payload more last [] hm]
    rw [sentinel_unmarshallLoop_found sentinel (payload ++ last) last [] hl]
    simp
  | cons d pre ih =>
    intro payload more last hm hpre hl
    simp only [List.cons_append]
    rw [sentinel_unmarshallLoop_cons sentinel payload more d (pre ++ [last]) hm]
    rw [ih (payload ++ d) d last (hpre d (by simp))
      (fun x hx => hpre x (by simp [hx])) hl]
    simp [List.append_assoc]

/-- If every chunk in the list is non-empty and the accumulator plus the
remaining chunks amount to exactly the configured length, the
fixed-length unmarshalling loop consumes every chunk and returns the
full accumulation. -/
theorem fixedlength_unmarshallLoop_ok (L : Nat) (chunks : List Bytes) :
    ∀ payload : Bytes, (∀ c ∈ chunks, c ≠ []) →
    payload.length + chunks.flatten.length = L →
    FixedLengthBytesMarshaller.unmarshallLoop L payload chunks =
      Except.ok (payload ++ chunks.flatten) := by
  induction chunks with
  | nil =>
    intro payload _ hlen
    simp only [List.flatten_nil, List.length_nil, Nat.add_zero] at hlen
    rw [FixedLengthBytesMarshaller.unmarshallLoop, if_neg (by omega),
      if_neg (by omega)]
    simp
  | cons c rest ih =>
    intro payload hc hlen
    have hclen : 0 < c.length := by
      have hcne : c ≠ [] := hc c (by simp)
      cases c with
      | nil => exact absurd rfl hcne
      | cons a l => simp
    have hflen : (c :: rest).flatten.length = c.length + rest.flatten.length := by
      simp
    rw [hflen] at hlen
    have hlt : payload.length < L := by omega
    rw [FixedLengthBytesMarshaller.unmarshallLoop, if_pos hlt]
    rw [ih (payload ++ c) (fun x hx => hc x (by simp [hx]))
      (by simp only [List.length_append]; omega)]
    simp [List.append_assoc]

/-- The fixed-length unmarshalling loop succeeds only with a payload of
exactly the configured length. -/
theorem fixedlength_unmarshallLoop_ok_length (L : Nat) (chunks : List Bytes) :
    ∀ payload p : Bytes,
    FixedLengthBytesMarshaller.unmarshallLoop L payload chunks = Except.ok p →
    p.length = L := by
  induction chunks with
  | nil =>
    intro payload p h
    rw [FixedLengthBytesMarshaller.unmarshallLoop] at h
    by_cases h1 : payload.length < L
    · rw [if_pos h1] at h
      exact Except.noConfusion h
    · rw [if_neg h1] at h
      by_cases h2 : payload.length ≠ L
      · rw [if_pos h2] at h
        exact Except.noConfusion h
      · rw [if_neg h2] at h
        injection h with h3
        subst h3
        omega
  | cons c rest ih =>
    intro payload p h
    rw [FixedLengthBytesMarshaller.unmarshallLoop] at h
    by_cases h1 : payload.length < L
    · rw [if_pos h1] at h
      exact ih (payload ++ c) p h
    · rw [if_neg h1] at h
      by_cases h2 : payload.length ≠ L
      · rw [if_pos h2] at h
        exact Except.noConfusion h
      · rw [if_neg h2] at h
        injection h with h3
        subst h3
        omega

/-- Once the accumulator is strictly longer than the configured length,
the fixed-length unmarshalling loop fails with a length mismatch. -/
theorem fixedlength_unmarshallLoop_overshoot (L : Nat) (payload : Bytes)
    (chunks : List Bytes) (h : L < payload.length) :
    FixedLengthBytesMarshaller.unmarshallLoop L payload chunks =
      Except.error MarshallError.lengthMismatch := by
  rw [FixedLengthBytesMarshaller.unmarshallLoop.eq_def, if_neg (by omega),
    if_pos (by omega)]

/-- If the accumulation first reaches the configured length by strictly
overshooting it (after `k` further chunks), the fixed-length
unmarshalling loop fails with a length mismatch. -/
theorem fixedlength_unmarshallLoop_mismatch (L : Nat) (chunks : List Bytes) :
    ∀ (payload : Bytes) (k : Nat), k ≤ chunks.length →
    L < (payload ++ (chunks.take k).flatten).length →
    (∀ j < k, (payload ++ (chunks.take j).flatten).length < L) →
    FixedLengthBytesMarshaller.unmarshallLoop L payload chunks =
      Except.error MarshallError.lengthMismatch := by
  induction chunks with
  | nil =>
    intro payload k hk hover _
    have hk0 : k = 0 := by simpa using hk
    subst hk0
    simp only [List.take_nil, List.flatten_nil, List.append_nil] at hover
    exact fixedlength_unmarshallLoop_overshoot L payload [] hover
  | cons c rest ih =>
    intro payload k hk hover hbelow
    cases k with
    | zero =>
      simp only [List.take_zero, List.flatten_nil, List.append_nil] at hover
      exact fixedlength_unmarshallLoop_overshoot L payload (c :: rest) hover
    | succ k' =>
      have hlt : payload.length < L := by
        have h0 := hbelow 0 (Nat.succ_pos k')
        simpa using h0
      rw [FixedLengthBytesMarshaller.unmarshallLoop, if_pos hlt]
      apply ih (payload ++ c) k'
      · simp only [List.length_cons] at hk
        omega
      · have ht : (c :: rest).take (k' + 1) = c :: rest.take k' := rfl
        rw [ht] at hover
        simpa [List.append_assoc] using hover
      · intro j hj
        have hb := hbelow (j + 1) (by omega)
        have ht : (c :: rest).take (j + 1) = c :: rest.take j := rfl
        rw [ht] at hb
        simpa [List.append_assoc] using hb

end Lemmas

/-- C1 counterexample: with sentinel `[0, 1]` and payload `[2]` (which
does not contain the sentinel), the splitting of the marshalled bytes
`[2, 0, 1]` into the non-empty chunks `[2, 0]` and `[1]` makes the
sentinel span the two chunks; unmarshalling this splitting does not
return the payload (the per-chunk endswith check never fires). -/
theorem sentinel_roundtrip_spanning_cex :
    (¬ [0, 1] <:+: ([2] : Bytes)) ∧
    ([[2, 0], [1]] : List Bytes).flatten =
      SentinelBytesMarshaller.marshall [0, 1] [2] ∧
    (∀ c ∈ ([[2, 0], [1]] : List Bytes), c ≠ []) ∧
    SentinelBytesMarshaller.unmarshall [0, 1] [[2, 0], [1]] ≠
      Except.ok [2] := by
  refine ⟨by decide, rfl, by decide, by decide⟩

/-- C1 amended: the sentinel-detection check is performed on each single
received chunk (Python `more_bytes.endswith(sentinel)`), not on the
cumulative accumulator; the round trip `unmarshall(chunks) = p` holds
for every splitting of `marshall(p) = p ++ sentinel` whose final chunk
ends with the sentinel and in which no earlier chunk ends with the
sentinel.  A splitting in which no chunk ends with the sentinel is not
covered by this guarantee, and the counterexample shows the round trip
can indeed fail there. -/
theorem sentinel_roundtrip_per_chunk_check (sentinel p last : Bytes)
    (pre : List Bytes)
    (hflat : (pre ++ [last]).flatten = SentinelBytesMarshaller.marshall sentinel p)
    (hlast : sentinel <:+ last)
    (hpre : ∀ d ∈ pre, ¬ sentinel <:+ d) :
    SentinelBytesMarshaller.unmarshall sentinel (pre ++ [last]) =
      Except.ok p := by
  cases pre with
  | nil =>
    have hl : last = p ++ sentinel := by
      simpa [SentinelBytesMarshaller.marshall] using hflat
    simp only [List.nil_append]
    rw [SentinelBytesMarshaller.unmarshall]
    rw [sentinel_unmarshallLoop_found sentinel last last [] hlast, hl,
      removeSuffix_append]
  | cons d pre =>
    have hm : ¬ sentinel <:+ d := hpre d (by simp)
    have hpre2 : ∀ x ∈ pre, ¬ sentinel <:+ x := fun x hx => hpre x (by simp [hx])
    have h2 : d ++ (pre ++ [last]).flatten = p ++ sentinel := by
      simpa [SentinelBytesMarshaller.marshall] using hflat
    simp only [List.cons_append]
    rw [SentinelBytesMarshaller.unmarshall]
    rw [sentinel_unmarshallLoop_ok sentinel pre d d last hm hpre2 hlast, h2,
      removeSuffix_append]

/-- Witness for the amended C1: sentinel `[0]`, payload `[1, 2]`, split
as `[1]` then `[2, 0]`; the final chunk ends with the sentinel and the
round trip returns the payload. -/
theorem sentinel_roundtrip_per_chunk_check_witness :
    SentinelBytesMarshaller.unmarshall [0] [[1], [2, 0]] =
      Except.ok [1, 2] :=
  sentinel_roundtrip_per_chunk_check [0] [1, 2] [2, 0] [[1]] (by decide)
    (by decide) (by decide)

/-- C3: for every payload of length exactly `L` and every splitting of
the marshalled bytes into one or more non-empty chunks, the fixed-length
round trip returns the payload. -/
theorem fixedlength_roundtrip (L : Nat) (p m : Bytes) (chunks : List Bytes)
    (hp : p.length = L)
    (hm : FixedLengthBytesMarshaller.marshall L p = Except.ok m)
    (hne : chunks ≠ []) (hc : ∀ c ∈ chunks, c ≠ [])
    (hflat : chunks.flatten = m) :
    FixedLengthBytesMarshaller.unmarshall L chunks = Except.ok p := by
  have hmp : p = m := by
    rw [FixedLengthBytesMarshaller.marshall, if_neg (by omega)] at hm
    injection hm
  subst hmp
  cases chunks with
  | nil => exact absurd rfl hne
  | cons c rest =>
    have hlen : c.length + rest.flatten.length = L := by
      have := congrArg List.length hflat
      simp only [List.flatten_cons, List.length_append] at this
      omega
    calc FixedLengthBytesMarshaller.unmarshall L (c :: rest)
        = FixedLengthBytesMarshaller.unmarshallLoop L c rest := rfl
      _ = Except.ok (c ++ rest.flatten) :=
          fixedlength_unmarshallLoop_ok L rest c
            (fun x hx => hc x (by simp [hx])) hlen
      _ = Except.ok p := by
          rw [← hflat]
          simp

/-- Witness for C3 at length 3: payload `[5, 6, 7]` split into chunks
`[5]` and `[6, 7]` round-trips. -/
theorem fixedlength_roundtrip_witness :
    FixedLengthBytesMarshaller.unmarshall 3 [[5], [6, 7]] =
      Except.ok [5, 6, 7] :=
  fixedlength_roundtrip 3 [5, 6, 7] [5, 6, 7] [[5], [6, 7]] (by decide)
    (by decide) (by decide) (by decide) (by decide)

/-- C4: `FixedLengthBytesMarshaller(L).unmarshall` accumulates chunks
until the accumulated length is at least `L`; it returns successfully
only with a payload of length exactly `L`, and whenever the accumulation
first reaches `L` by strictly overshooting it (after `k` chunks, every
earlier accumulated length being below `L`) it fails with a length
mismatch instead of truncating. -/
theorem fixedlength_unmarshall_exact_or_mismatch (L : Nat)
    (chunks : List Bytes) :
    (∀ p, FixedLengthBytesMarshaller.unmarshall L chunks = Except.ok p →
      p.length = L) ∧
    (∀ k, 1 ≤ k → k ≤ chunks.length →
      L < ((chunks.take k).flatten).length →
      (∀ j < k, 1 ≤ j → ((chunks.take j).flatten).length < L) →
      FixedLengthBytesMarshaller.unmarshall L chunks =
        Except.error MarshallError.lengthMismatch) := by
  constructor
  · intro p h
    cases chunks with
    | nil => exact Except.noConfusion h
    | cons c rest => exact fixedlength_unmarshallLoop_ok_length L rest c p h
  · intro k hk1 hk2 hover hbelow
    cases chunks with
    | nil =>
      simp only [List.length_nil] at hk2
      omega
    | cons c rest =>
      cases k with
      | zero => omega
      | succ k' =>
        apply fixedlength_unmarshallLoop_mismatch L rest c k'
        · simp only [List.length_cons] at hk2
          omega
        · have ht : (c :: rest).take (k' + 1) = c :: rest.take k' := rfl
          rw [ht] at hover
          simpa using hover
        · intro j hj
          have hb := hbelow (j + 1) (by omega) (by omega)
          have ht : (c :: rest).take (j + 1) = c :: rest.take j := rfl
          rw [ht] at hb
          simpa using hb

/-- Witness for C4 at length 2: chunks `[1]` then `[2, 3]` overshoot the
length at the second chunk, and unmarshalling fails with a length
mismatch. -/
theorem fixedlength_unmarshall_exact_or_mismatch_witness :
    FixedLengthBytesMarshaller.unmarshall 2 [[1], [2, 3]] =
      Except.error MarshallError.lengthMismatch :=
  (fixedlength_unmarshall_exact_or_mismatch 2 [[1], [2, 3]]).2 2 (by decide)
    (by decide) (by decide) (by decide)

/-- C6: `FixedLengthBytesMarshaller(L).marshall` fails with a
length-mismatch error for every payload whose length differs from `L`,
and for every payload of length exactly `L` it returns the payload
unchanged, adding no framing bytes. -/
theorem fixedlength_marshall_spec (L : Nat) (payload : Bytes) :
    (payload.length ≠ L →
      FixedLengthBytesMarshaller.marshall L payload =
        Except.error MarshallError.lengthMismatch) ∧
    (payload.length = L →
      FixedLengthBytesMarshaller.marshall L payload = Except.ok payload) := by
  constructor <;> intro h <;> simp [FixedLengthBytesMarshaller.marshall, h]

/-- Witness for C6 at length 2: payload `[7]` is rejected and payload
`[7, 8]` is returned unchanged. -/
theorem fixedlength_marshall_spec_witness :
    FixedLengthBytesMarshaller.marshall 2 [7] =
      Except.error MarshallError.lengthMismatch ∧
    FixedLengthBytesMarshaller.marshall 2 [7, 8] = Except.ok [7, 8] :=
  ⟨(fixedlength_marshall_spec 2 [7]).1 (by decide),
   (fixedlength_marshall_spec 2 [7, 8]).2 (by decide)⟩

/-- C7: when no chunk yielded by the source satisfies the
sentinel-termination condition of the unmarshalling loop (the condition
is Python `more_bytes.endswith(sentinel)`, checked on each received
chunk), `SentinelBytesMarshaller(s).unmarshall` exhausts the source and
fails with end of stream rather than returning a partial payload.  In
particular this covers every source whose accumulated bytes never
contain the sentinel, since a chunk ending with the sentinel would make
the sentinel appear in the accumulated bytes. -/
theorem sentinel_unmarshall_eos (sentinel : Bytes) (chunks : List Bytes)
    (h : ∀ c ∈ chunks, ¬ sentinel <:+ c) :
    SentinelBytesMarshaller.unmarshall sentinel chunks =
      Except.error MarshallError.endOfStream := by
  cases chunks with
  | nil => rfl
  | cons c rest =>
    exact sentinel_unmarshallLoop_eos sentinel rest c c (h c (by simp))
      fun d hd => h d (by simp [hd])

/-- Witness for C7: a two-chunk source never containing the two-byte
sentinel makes unmarshalling fail with end of stream. -/
theorem sentinel_unmarshall_eos_witness :
    SentinelBytesMarshaller.unmarshall [0, 1] [[1], [2]] =
      Except.error MarshallError.endOfStream :=
  sentinel_unmarshall_eos [0, 1] [[1], [2]] (by decide)

/-- C8: after `close()` has been called on a TCP client session, every
subsequent call to `request()` fails with `ConnectionError`; `close()`
releases the connection (the session socket is `None`), and closing
again leaves the session in the same closed state, so the session is
permanently unusable. -/
theorem tcp_request_after_close_fails (s : TcpClientSessionState) (req : Bytes) :
    s.close.request req = Except.error TcpError.connectionError ∧
    s.close.sessionSocket = none ∧
    s.close.close = s.close :=
  ⟨rfl, rfl, rfl⟩

/-- C10: in the TCP server request handler, a response of empty bytes is
treated identically to no response at all: the loop tests the response
for truthiness, so no bytes are sent on the connection and the loop
proceeds to await the next request. -/
theorem empty_response_treated_as_none (rest : List Bytes) :
    TcpServer.handleStep (TcpServer.CallbackResult.ok (some []) rest) =
      TcpServer.handleStep (TcpServer.CallbackResult.ok none rest) ∧
    TcpServer.handleStep (TcpServer.CallbackResult.ok (some []) rest) =
      TcpServer.StepAction.proceed rest := by
  constructor <;> rfl

/-- C2 counterexample: a callback raising an exception other than
`StopIteration` (here error code 7) makes the handler loop end with that
exception propagating out of the per-connection handler, instead of
being caught with the loop proceeding or the connection being closed. -/
theorem handle_propagates_callback_error :
    TcpServer.handle (fun _ => TcpServer.CallbackResult.raised 7) 1 [[1]] [] =
      ([], TcpServer.HandleEnd.errored 7) ∧
    (TcpServer.handle (fun _ => TcpServer.CallbackResult.raised 7) 1 [[1]] []).2 ≠
      TcpServer.HandleEnd.closed := by
  constructor
  · rfl
  · intro h
    simp [TcpServer.handle, TcpServer.handleStep] at h

/-- C2 amended: the per-connection handler loop catches only
`StopIteration` (the end-of-stream condition), on which it breaks the
loop and ends the connection; any other error raised by the application
callback is not caught and propagates out of the per-connection handler
(whole-server survival then rests on the standard-library socketserver
machinery, outside this code). -/
theorem handle_catches_only_stop_iteration
    (callback : List Bytes → TcpServer.CallbackResult)
    (fuel : Nat) (stream : List Bytes) (sent : Bytes) :
    (∀ e, callback stream = TcpServer.CallbackResult.raised e →
      TcpServer.handle callback (fuel + 1) stream sent =
        (sent, TcpServer.HandleEnd.errored e)) ∧
    (callback stream = TcpServer.CallbackResult.stopIteration →
      TcpServer.handle callback (fuel + 1) stream sent =
        (sent, TcpServer.HandleEnd.closed)) := by
  constructor
  · intro e h
    simp [TcpServer.handle, h, TcpServer.handleStep]
  · intro h
    simp [TcpServer.handle, h, TcpServer.handleStep]

/-- Witness for the amended C2: with a callback that always raises error
code 3, the handler run ends with that error propagating; with a
callback that always raises `StopIteration`, the run ends closed. -/
theorem handle_catches_only_stop_iteration_witness :
    TcpServer.handle (fun _ => TcpServer.CallbackResult.raised 3) 1 [] [] =
      ([], TcpServer.HandleEnd.errored 3) ∧
    TcpServer.handle (fun _ => TcpServer.CallbackResult.stopIteration) 1 [] [] =
      ([], TcpServer.HandleEnd.closed) :=
  ⟨(handle_catches_only_stop_iteration
      (fun _ => TcpServer.CallbackResult.raised 3) 0 [] []).1 3 rfl,
   (handle_catches_only_stop_iteration
      (fun _ => TcpServer.CallbackResult.stopIteration) 0 [] []).2 rfl⟩

/-- C5: `ApplicationServer.__call__` unmarshalls exactly one request
payload from the bytes iterator; when unmarshalling succeeds with
payload `req`, the result is determined by the single callback
invocation on `req`: the marshalled response when the callback returns
one, and `none` (hence no transmission) when the callback returns no
response; unmarshalling failures propagate. -/
theorem application_server_call_spec {ReqPayload RespPayload : Type}
    (U : List Bytes → Except MarshallError ReqPayload)
    (M : RespPayload → Bytes) (cb : ReqPayload → Option RespPayload)
    (src : List Bytes) :
    (∀ req, U src = Except.ok req →
      ApplicationServer.call U M cb src = Except.ok (Option.map M (cb req))) ∧
    (∀ e, U src = Except.error e →
      ApplicationServer.call U M cb src = Except.error e) := by
  constructor
  · intro req h
    rw [ApplicationServer.call, h]
    cases hcb : cb req <;> simp [hcb]
  · intro e h
    rw [ApplicationServer.call, h]

/-- Witness for C5: with the fixed-length request unmarshaller at length
1, a sentinel response marshaller, and an echo callback, the server call
on a one-chunk iterator produces the marshalled echo. -/
theorem application_server_call_spec_witness :
    ApplicationServer.call (FixedLengthBytesMarshaller.unmarshall 1)
      (SentinelBytesMarshaller.marshall [0]) (fun r => some r) [[5]] =
      Except.ok (some [5, 0]) :=
  ((application_server_call_spec (FixedLengthBytesMarshaller.unmarshall 1)
      (SentinelBytesMarshaller.marshall [0]) (fun r => some r) [[5]]).1 [5]
    (by decide)).trans rfl

/-- C9: for both `ApplicationClient.__exit__` and `TcpClient.__exit__`,
the exit handler closes the held session (releasing the underlying
connection) and drops the reference on every exit path, and it returns
`exception is None`, so an exception raised by the body of the context
is never suppressed. -/
theorem client_exit_closes_and_reraises (c : ApplicationClientState)
    (t : TcpClientState) (exc : Option Nat) :
    ((c.exitCtx exc).suppress = exc.isNone ∧
      (∀ e, (c.exitCtx (some e)).suppress = false) ∧
      (c.exitCtx exc).client.session = none ∧
      (∀ s, c.session = some s →
        (c.exitCtx exc).sessionAfter = some s.close ∧
        s.close.transportSession.sessionSocket = none)) ∧
    ((t.exitCtx exc).suppress = exc.isNone ∧
      (∀ e, (t.exitCtx (some e)).suppress = false) ∧
      (t.exitCtx exc).client.session = none ∧
      (∀ s, t.session = some s →
        (t.exitCtx exc).sessionAfter = some s.close ∧
        s.close.sessionSocket = none)) := by
  constructor
  · refine ⟨?_, ?_, ?_, ?_⟩
    · cases h : c.session <;> simp [ApplicationClientState.exitCtx, h]
    · intro e
      cases h : c.session <;> simp [ApplicationClientState.exitCtx, h]
    · cases hc : c with
      | mk sess =>
        cases sess <;> simp [ApplicationClientState.exitCtx]
    · intro s hs
      exact ⟨by simp [ApplicationClientState.exitCtx, hs], rfl⟩
  · refine ⟨?_, ?_, ?_, ?_⟩
    · cases h : t.session <;> simp [TcpClientState.exitCtx, h]
    · intro e
      cases h : t.session <;> simp [TcpClientState.exitCtx, h]
    · cases ht : t with
      | mk sess =>
        cases sess <;> simp [TcpClientState.exitCtx]
    · intro s hs
      exact ⟨by simp [TcpClientState.exitCtx, hs], rfl⟩

/-- Witness for C9 at a concrete open client and a raised exception with
code 9: the exception is not suppressed, and the held session ends up
closed. -/
theorem client_exit_closes_and_reraises_witness :
    (ApplicationClientState.exitCtx ⟨some ⟨⟨some 3, 5⟩⟩⟩ (some 9)).suppress =
      false ∧
    (ApplicationClientState.exitCtx ⟨some ⟨⟨some 3, 5⟩⟩⟩ (some 9)).sessionAfter =
      some (ApplicationClientSessionState.close ⟨⟨some 3, 5⟩⟩) ∧
    (TcpClientState.exitCtx ⟨some ⟨some 4, 6⟩⟩ (some 9)).suppress = false := by
  have h := client_exit_closes_and_reraises ⟨some ⟨⟨some 3, 5⟩⟩⟩
    ⟨some ⟨some 4, 6⟩⟩ (some 9)
  exact ⟨h.1.2.1 9, (h.1.2.2.2 ⟨⟨some 3, 5⟩⟩ rfl).1, h.2.2.1 9⟩
